import Mathlib

/-!
Shallow embedding of the feature/interval core of bpp-seq-omics
(src/Bpp/Seq/Feature/SequenceFeature.h): the strand-aware half-open range
`SeqRange`, the concrete feature record `BasicSequenceFeature`, and the
owning collection `SequenceFeatureSet` with its subset queries.

Machine integers (`size_t`) are modelled as `Nat`; the one place where
unsigned wrap-around matters (`size() = end - start`) uses an explicit
`% 2 ^ 64`.  `std::map<std::string, std::string>` is modelled as an
association list with unique keys (the `std::map` invariant); its key order
is only observable through `getAttributeList`, which the source returns as a
`std::set`, so claims only inspect membership.  The `double score_` field is
modelled as `Int`: no verified property performs floating-point arithmetic
on it (only the default `-1` and structural copying are ever observed).

Aliasing / deep-copy properties of `SequenceFeatureSet` are verified over an
explicit heap model further below, where features live at addresses and
`clone()` allocates a fresh cell.
-/

namespace BppSeqOmics

/-- Strand-aware half-open range, from class `SeqRange` in SequenceFeature.h.
Fields mirror `Range<size_t>::begin_ / end_` and `SeqRange::strand_`. -/
structure SeqRange where
  begin_ : Nat
  end_ : Nat
  strand_ : Char
deriving DecidableEq, Repr

/-- Strand normalization performed by both `SeqRange` constructors:
the member is initialized with the argument, then overwritten with `'.'`
unless the argument is one of the four recognized symbols. -/
def strandInit (strand : Char) : Char :=
  if strand ≠ '+' ∧ strand ≠ '-' ∧ strand ≠ '?' ∧ strand ≠ '.' then '.' else strand

/-- Constructor `SeqRange(size_t a, size_t b, char strand)`. -/
def SeqRange.make (a b : Nat) (strand : Char) : SeqRange :=
  { begin_ := a, end_ := b, strand_ := strandInit strand }

/-- Constructor `SeqRange(const Range<size_t> range, char strand)`: copies the
bounds of the given range and normalizes the strand argument. -/
def SeqRange.ofRange (r : SeqRange) (strand : Char) : SeqRange :=
  { begin_ := r.begin_, end_ := r.end_, strand_ := strandInit strand }

def SeqRange.getStrand (r : SeqRange) : Char := r.strand_

def SeqRange.isNegativeStrand (r : SeqRange) : Bool := r.strand_ == '-'

def SeqRange.isStranded (r : SeqRange) : Bool := r.strand_ == '+' || r.strand_ == '-'

/-- Method `SeqRange::invert()`: if stranded, toggle the strand. -/
def SeqRange.invert (r : SeqRange) : SeqRange :=
  if r.isStranded then
    if r.isNegativeStrand then { r with strand_ := '+' } else { r with strand_ := '-' }
  else r

/-- Modelled from the spec: `Range<size_t>::overlap` comes from bpp-core
(Bpp/Numeric/Range.h), an external dependency not under src/.  Per the spec,
overlap is "true iff the two half-open intervals share at least one
coordinate", which for `[a, b)` and `[c, d)` is `max a c < min b d`. -/
def rangeOverlap (r1 r2 : SeqRange) : Bool :=
  decide (max r1.begin_ r2.begin_ < min r1.end_ r2.end_)

/-- Modelled from the spec: `Range<size_t>::contains(Range)` from bpp-core,
not under src/.  Per the spec, `contains(other)` is "true iff
`other.start ≥ this.start ∧ other.end ≤ this.end`" (non-strict). -/
def rangeContains (r1 r2 : SeqRange) : Bool :=
  decide (r2.begin_ ≥ r1.begin_ ∧ r2.end_ ≤ r1.end_)

/-- Membership of a single coordinate in a half-open range (used to state
that two ranges "share at least one coordinate"). -/
def SeqRange.containsPos (r : SeqRange) (x : Nat) : Prop :=
  r.begin_ ≤ x ∧ x < r.end_

instance (r : SeqRange) (x : Nat) : Decidable (r.containsPos x) :=
  inferInstanceAs (Decidable (_ ∧ _))

/-- Unsigned `size_t` subtraction (wraps modulo `2 ^ 64`), used by
`SequenceFeature::size()`. -/
def sizeTSub (a b : Nat) : Nat := (2 ^ 64 + a - b) % 2 ^ 64

/-- Association-list lookup, modelling `std::map::find`. -/
def mapFind (l : List (String × String)) (k : String) : Option String :=
  match l with
  | [] => none
  | (k2, v) :: rest => if k2 = k then some v else mapFind rest k

/-- Association-list insert-or-assign, modelling `attributes_[k] = v`. -/
def mapInsert (l : List (String × String)) (k v : String) : List (String × String) :=
  match l with
  | [] => [(k, v)]
  | (k2, v2) :: rest => if k2 = k then (k, v) :: rest else (k2, v2) :: mapInsert rest k v

/-- Association-list erase of the (unique) entry with the given key,
modelling `attributes_.erase(it)` after a successful `find`. -/
def mapErase (l : List (String × String)) (k : String) : List (String × String) :=
  match l with
  | [] => []
  | (k2, v2) :: rest => if k2 = k then rest else (k2, v2) :: mapErase rest k

/-- Modelled from the spec: the shared "unset" sentinel
`SequenceFeature::NO_ATTRIBUTE_SET`, declared in the header; its initializer
lives in SequenceFeature.cpp, which is not under src/.  The spec only says it
is a shared, distinguished "unset" sentinel string; theorems refer to it
symbolically and never depend on its concrete value. -/
def NO_ATTRIBUTE_SET : String := ""

/-- Concrete feature record, from class `BasicSequenceFeature`. -/
structure BasicSequenceFeature where
  id_ : String
  sequenceId_ : String
  source_ : String
  type_ : String
  range_ : SeqRange
  score_ : Int
  attributes_ : List (String × String)
deriving DecidableEq, Repr

/-- Default constructor `BasicSequenceFeature()`. -/
def BasicSequenceFeature.mkDefault : BasicSequenceFeature :=
  { id_ := "", sequenceId_ := "", source_ := "", type_ := "",
    range_ := SeqRange.make 0 0 '.', score_ := -1, attributes_ := [] }

instance : Inhabited BasicSequenceFeature := ⟨BasicSequenceFeature.mkDefault⟩

/-- Main constructor `BasicSequenceFeature(id, seqId, source, type, start, end,
strand, score)`. -/
def BasicSequenceFeature.make (id seqId source type : String) (start stop : Nat)
    (strand : Char) (score : Int) : BasicSequenceFeature :=
  { id_ := id, sequenceId_ := seqId, source_ := source, type_ := type,
    range_ := SeqRange.make start stop strand, score_ := score, attributes_ := [] }

namespace BasicSequenceFeature

def getId (f : BasicSequenceFeature) : String := f.id_

def getSequenceId (f : BasicSequenceFeature) : String := f.sequenceId_

def getType (f : BasicSequenceFeature) : String := f.type_

def getStart (f : BasicSequenceFeature) : Nat := f.range_.begin_

def getEnd (f : BasicSequenceFeature) : Nat := f.range_.end_

/-- Method `SequenceFeature::size()`: `getEnd() - getStart()` in `size_t`
arithmetic. -/
def size (f : BasicSequenceFeature) : Nat := sizeTSub f.getEnd f.getStart

def isEmpty (f : BasicSequenceFeature) : Bool := f.size == 0

def isPoint (f : BasicSequenceFeature) : Bool := f.size == 1

def isStranded (f : BasicSequenceFeature) : Bool := f.range_.isStranded

def isNegativeStrand (f : BasicSequenceFeature) : Bool := f.range_.isNegativeStrand

def invert (f : BasicSequenceFeature) : BasicSequenceFeature :=
  { f with range_ := f.range_.invert }

/-- Method `getRange()`: returns a copy of the internal coordinates
(the `SeqRange(range_)` call resolves to the copy constructor, so the strand
is preserved). -/
def getRange (f : BasicSequenceFeature) : SeqRange := f.range_

/-- Overload `overlap(const SequenceFeature& feat)`: range overlap gated on
equal sequence ids. -/
def overlapFeature (f feat : BasicSequenceFeature) : Bool :=
  if feat.sequenceId_ == f.sequenceId_ then rangeOverlap f.range_ feat.getRange
  else false

/-- Overload `overlap(const SeqRange& range)`. -/
def overlap (f : BasicSequenceFeature) (range : SeqRange) : Bool :=
  rangeOverlap f.range_ range

/-- Method `includes`: this feature's range contains the argument. -/
def includes (f : BasicSequenceFeature) (range : SeqRange) : Bool :=
  rangeContains f.range_ range

/-- Method `isIncludedIn`: the argument contains this feature's range. -/
def isIncludedIn (f : BasicSequenceFeature) (range : SeqRange) : Bool :=
  rangeContains range f.range_

/-- Read-only `getAttribute`: the found value, or the shared sentinel. -/
def getAttribute (f : BasicSequenceFeature) (attrName : String) : String :=
  match mapFind f.attributes_ attrName with
  | some v => v
  | none => NO_ATTRIBUTE_SET

/-- Mutable `getAttribute` (`return attributes_[attribute];`): `operator[]`
value-initializes a missing entry with the empty string; the call returns the
(possibly fresh) entry's value together with the updated feature. -/
def getAttributeMut (f : BasicSequenceFeature) (attrName : String) :
    String × BasicSequenceFeature :=
  match mapFind f.attributes_ attrName with
  | some v => (v, f)
  | none => ("", { f with attributes_ := mapInsert f.attributes_ attrName ("") })

def setAttribute (f : BasicSequenceFeature) (attrName value : String) :
    BasicSequenceFeature :=
  { f with attributes_ := mapInsert f.attributes_ attrName value }

/-- Method `getAttributeList()`: the attribute names (source returns them as a
`std::set`; only membership is observed here). -/
def getAttributeList (f : BasicSequenceFeature) : List String :=
  f.attributes_.map Prod.fst

def removeAttribute (f : BasicSequenceFeature) (attrName : String) :
    BasicSequenceFeature :=
  { f with attributes_ := mapErase f.attributes_ attrName }

end BasicSequenceFeature

/-- Value-semantics view of `SequenceFeatureSet`: the stored clones are
modelled by the feature values themselves, in insertion order.  Aliasing
properties are handled separately by the heap model below. -/
structure SequenceFeatureSet where
  features_ : List BasicSequenceFeature
deriving DecidableEq, Repr

namespace SequenceFeatureSet

def getFeature (s : SequenceFeatureSet) (i : Nat) : BasicSequenceFeature :=
  s.features_.getD i default

def getNumberOfFeatures (s : SequenceFeatureSet) : Nat := s.features_.length

def isEmpty (s : SequenceFeatureSet) : Bool := s.features_.length == 0

/-- Method `addFeature`: clone the argument and append. -/
def addFeature (s : SequenceFeatureSet) (f : BasicSequenceFeature) :
    SequenceFeatureSet :=
  ⟨s.features_ ++ [f]⟩

/-- Method `getSubsetForType`: linear scan keeping features whose type equals
the argument (each kept feature is cloned into the fresh subset). -/
def getSubsetForType (s : SequenceFeatureSet) (type : String) : SequenceFeatureSet :=
  ⟨s.features_.filter (fun f => f.type_ == type)⟩

/-- Method `getSubsetForTypes`: keeps features whose type occurs in the given
list (`std::find` over the vector). -/
def getSubsetForTypes (s : SequenceFeatureSet) (types : List String) :
    SequenceFeatureSet :=
  ⟨s.features_.filter (fun f => types.contains f.type_)⟩

/-- Method `getSubsetForSequence`. -/
def getSubsetForSequence (s : SequenceFeatureSet) (id : String) : SequenceFeatureSet :=
  ⟨s.features_.filter (fun f => f.sequenceId_ == id)⟩

/-- Method `getSubsetForSequences`. -/
def getSubsetForSequences (s : SequenceFeatureSet) (ids : List String) :
    SequenceFeatureSet :=
  ⟨s.features_.filter (fun f => ids.contains f.sequenceId_)⟩

/-- Method `getSubsetForRange(range, complete)`: keep features fully included
in the range when `complete`, merely overlapping it otherwise. -/
def getSubsetForRange (s : SequenceFeatureSet) (range : SeqRange) (complete : Bool) :
    SequenceFeatureSet :=
  ⟨s.features_.filter
    (fun f => if complete then f.isIncludedIn range else f.overlap range)⟩

/-- Method `fillRangeCollection`.  Modelled from the spec: the bpp-core
`RangeCollection` output argument is not under src/; per the spec the method
appends "every feature's range into a caller-supplied range collection
(additive — never clears the destination first)", so the collection is a list
and `addRange` appends. -/
def fillRangeCollection (s : SequenceFeatureSet) (coords : List SeqRange) :
    List SeqRange :=
  coords ++ s.features_.map BasicSequenceFeature.getRange

/-- Method `fillRangeCollectionForSequence`: as `fillRangeCollection`, only
over features with the given sequence id. -/
def fillRangeCollectionForSequence (s : SequenceFeatureSet) (seqId : String)
    (coords : List SeqRange) : List SeqRange :=
  coords ++ (s.features_.filter (fun f => f.sequenceId_ == seqId)).map
    BasicSequenceFeature.getRange

end SequenceFeatureSet

/-!
Heap model.  The deep-copy / aliasing guarantees of `SequenceFeatureSet`
(`addFeature` clones, copy-construction and `operator=` clone every element,
subsets are independent snapshots) are statements about object identity, so
here features live in an explicit store addressed by natural numbers: a
`SequenceFeature*` is an address, `clone()` is an allocation of a fresh cell
holding a copy of the value, and mutation of an object is a write to its
address.  Freed cells are simply never read again by the modelled operations
(no verified statement inspects them).
-/

/-- Store of feature objects; the address of a cell is its index. -/
structure Heap where
  store : List BasicSequenceFeature
deriving Repr

def Heap.read (h : Heap) (a : Nat) : BasicSequenceFeature := h.store.getD a default

def Heap.write (h : Heap) (a : Nat) (f : BasicSequenceFeature) : Heap :=
  ⟨h.store.set a f⟩

/-- Allocation (`new`): appends a cell and returns its fresh address. -/
def Heap.alloc (h : Heap) (f : BasicSequenceFeature) : Heap × Nat :=
  (⟨h.store ++ [f]⟩, h.store.length)

/-- Heap view of `SequenceFeatureSet`: the `std::vector<SequenceFeature*>`
of owned addresses. -/
structure SequenceFeatureSetH where
  features_ : List Nat
deriving DecidableEq, Repr

/-- Heap view of `addFeature`: `features_.push_back(feature.clone())` — a
fresh cell holding a copy of the argument's value is allocated and its
address appended. -/
def addFeatureH (h : Heap) (s : SequenceFeatureSetH) (a : Nat) :
    Heap × SequenceFeatureSetH :=
  let p := Heap.alloc h (Heap.read h a)
  (p.1, ⟨s.features_ ++ [p.2]⟩)

/-- Heap view of the shared loop body of every `getSubsetFor*` method:
scan the owned addresses in order and `addFeature` (clone) each feature
satisfying the predicate into the fresh subset.  Each concrete method is this
loop with its own predicate (`getType() == type`, `isIncludedIn(range)`,
...). -/
def subsetLoopH (h : Heap) (sub : SequenceFeatureSetH) (src : List Nat)
    (p : BasicSequenceFeature → Bool) : Heap × SequenceFeatureSetH :=
  match src with
  | [] => (h, sub)
  | a :: rest =>
    if p (Heap.read h a) then
      let q := addFeatureH h sub a
      subsetLoopH q.1 q.2 rest p
    else subsetLoopH h sub rest p

def getSubsetByH (h : Heap) (s : SequenceFeatureSetH)
    (p : BasicSequenceFeature → Bool) : Heap × SequenceFeatureSetH :=
  subsetLoopH h ⟨[]⟩ s.features_ p

/-- Heap view of the clone loop shared by the copy constructor and
`operator=`: `features_.push_back((**it).clone())` over the source
addresses, accumulating into `sub`. -/
def assignCloneLoop (h : Heap) (sub : List Nat) (src : List Nat) :
    Heap × List Nat :=
  match src with
  | [] => (h, sub)
  | a :: rest =>
    let p := Heap.alloc h (Heap.read h a)
    assignCloneLoop p.1 (sub ++ [p.2]) rest

/-- Heap view of `operator=`, acting on a store `sets` of feature-set objects
(index `i` is the assigned-to object `*this`, index `j` the source `sfs`;
`i = j` is self-assignment).  Mirrors the source: first `clear()` empties
`this->features_` (the cleared cells are never read again), then the loop
iterates over `sfs.features_` as it is AFTER the clear. -/
def opAssign (h : Heap) (sets : List (List Nat)) (i j : Nat) :
    Heap × List (List Nat) :=
  let sets1 := sets.set i []
  let p := assignCloneLoop h [] (sets1.getD j [])
  (p.1, sets1.set i p.2)

/-- Heap view of the copy constructor `SequenceFeatureSet(const
SequenceFeatureSet&)`: a brand-new object (fresh index `sets.length`) whose
`features_` is filled by the clone loop over the source's addresses. -/
def copyCtorH (h : Heap) (sets : List (List Nat)) (j : Nat) :
    Heap × List (List Nat) :=
  let p := assignCloneLoop h [] (sets.getD j [])
  (p.1, sets ++ [p.2])

/-!
Helper lemmas shared by the claim theorems.
-/

theorem mapFind_mapInsert_self (l : List (String × String)) (k v : String) :
    mapFind (mapInsert l k v) k = some v := by
  induction l with
  | nil => simp [mapInsert, mapFind]
  | cons hd tl ih =>
    obtain ⟨k2, v2⟩ := hd
    by_cases h : k2 = k
    · simp [mapInsert, h, mapFind]
    · simp [mapInsert, h, mapFind, ih]

theorem mem_keys_mapInsert (l : List (String × String)) (k v : String) :
    k ∈ (mapInsert l k v).map Prod.fst := by
  induction l with
  | nil => simp [mapInsert]
  | cons hd tl ih =>
    obtain ⟨k2, v2⟩ := hd
    by_cases h : k2 = k
    · simp [mapInsert, h]
    · simp [mapInsert, h, ih]

theorem mapFind_eq_none_iff (l : List (String × String)) (k : String) :
    mapFind l k = none ↔ k ∉ l.map Prod.fst := by
  induction l with
  | nil => simp [mapFind]
  | cons hd tl ih =>
    obtain ⟨k2, v2⟩ := hd
    by_cases h : k2 = k
    · simp [mapFind, h]
    · simp [mapFind, h, ih, Ne.symm h]

theorem mapErase_of_not_mem (l : List (String × String)) (k : String)
    (h : k ∉ l.map Prod.fst) : mapErase l k = l := by
  induction l with
  | nil => simp [mapErase]
  | cons hd tl ih =>
    obtain ⟨k2, v2⟩ := hd
    simp only [List.map_cons, List.mem_cons, not_or] at h
    simp [mapErase, Ne.symm h.1, ih h.2]

theorem not_mem_keys_mapErase (l : List (String × String)) (k : String)
    (h : (l.map Prod.fst).Nodup) : k ∉ (mapErase l k).map Prod.fst := by
  induction l with
  | nil => simp [mapErase]
  | cons hd tl ih =>
    obtain ⟨k2, v2⟩ := hd
    simp only [List.map_cons, List.nodup_cons] at h
    by_cases hk : k2 = k
    · subst hk
      simp only [mapErase, if_pos rfl]
      exact h.1
    · simp only [mapErase, if_neg hk, List.map_cons, List.mem_cons, not_or]
      exact ⟨fun hc => hk (hc.symm ▸ rfl), ih h.2⟩

theorem heap_read_write_ne (h : Heap) (a b : Nat) (w : BasicSequenceFeature)
    (hne : a ≠ b) : (h.write a w).read b = h.read b := by
  unfold Heap.write Heap.read
  simp [List.getD, List.getElem?_set_ne hne]

theorem heap_read_append_old (l l2 : List BasicSequenceFeature) (a : Nat)
    (ha : a < l.length) : Heap.read ⟨l ++ l2⟩ a = Heap.read ⟨l⟩ a := by
  unfold Heap.read
  exact List.getD_append l l2 default a ha

theorem subsetLoopH_store_len (p : BasicSequenceFeature → Bool) (src : List Nat) :
    ∀ (h : Heap) (sub : SequenceFeatureSetH),
      h.store.length ≤ (subsetLoopH h sub src p).1.store.length := by
  induction src with
  | nil => intro h sub; simp [subsetLoopH]
  | cons a rest ih =>
    intro h sub
    unfold subsetLoopH
    by_cases hp : p (Heap.read h a)
    · simp only [hp, if_true]
      have h1 : h.store.length ≤ (addFeatureH h sub a).1.store.length := by
        simp [addFeatureH, Heap.alloc]
      exact le_trans h1 (ih _ _)
    · simp only [hp, if_false]
      exact ih _ _

theorem subsetLoopH_addrs (p : BasicSequenceFeature → Bool) (src : List Nat) :
    ∀ (h : Heap) (sub : SequenceFeatureSetH) (c : Nat),
      c ∈ (subsetLoopH h sub src p).2.features_ →
      c ∈ sub.features_ ∨ h.store.length ≤ c := by
  induction src with
  | nil =>
    intro h sub c hc
    simp only [subsetLoopH] at hc
    exact Or.inl hc
  | cons a rest ih =>
    intro h sub c hc
    unfold subsetLoopH at hc
    by_cases hp : p (Heap.read h a)
    · simp only [hp, if_true] at hc
      rcases ih _ _ c hc with h1 | h2
      · simp only [addFeatureH, Heap.alloc] at h1
        rcases List.mem_append.1 h1 with h1 | h1
        · exact Or.inl h1
        · simp only [List.mem_singleton] at h1
          exact Or.inr (le_of_eq h1.symm)
      · refine Or.inr (le_trans ?_ h2)
        simp [addFeatureH, Heap.alloc]
    · simp only [hp, if_false] at hc
      exact ih _ _ c hc

theorem assignCloneLoop_spec (src : List Nat) :
    ∀ (h : Heap) (sub : List Nat), (∀ a ∈ src, a < h.store.length) →
      assignCloneLoop h sub src =
        (⟨h.store ++ src.map h.read⟩, sub ++ List.range' h.store.length src.length) := by
  induction src with
  | nil => intro h sub _; simp [assignCloneLoop, List.range']
  | cons a rest ih =>
    intro h sub hv
    unfold assignCloneLoop
    simp only [Heap.alloc]
    rw [ih ⟨h.store ++ [h.read a]⟩ (sub ++ [h.store.length]) ?_]
    · have hmap : rest.map (Heap.read ⟨h.store ++ [h.read a]⟩) = rest.map h.read := by
        refine List.map_congr_left ?_
        intro a2 ha2
        exact heap_read_append_old h.store [h.read a] a2
          (hv a2 (List.mem_cons_of_mem a ha2))
      refine Prod.ext ?_ ?_
      · simp only [hmap, List.map_cons]
        congr 1
        simp
      · simp only [List.length_cons, List.length_append, List.length_singleton]
        rw [List.range'_succ]
        simp
    · intro a2 ha2
      have := hv a2 (List.mem_cons_of_mem a ha2)
      simp only [List.length_append, List.length_singleton]
      omega

theorem filter_getD_mem {α : Type} (d : α) (p : α → Bool) :
    ∀ (l : List α) (j : Nat), j < (l.filter p).length →
      ∃ j2, j2 < l.length ∧ (l.filter p).getD j d = l.getD j2 d := by
  intro l
  induction l with
  | nil => intro j hj; simp at hj
  | cons a t ih =>
    intro j hj
    by_cases hp : p a
    · rw [List.filter_cons_of_pos hp] at hj ⊢
      cases j with
      | zero => exact ⟨0, by simp, rfl⟩
      | succ j2 =>
        obtain ⟨j3, hj3, he⟩ := ih j2 (by simpa using hj)
        exact ⟨j3 + 1, by simpa using hj3, he⟩
    · rw [List.filter_cons_of_neg hp] at hj ⊢
      obtain ⟨j3, hj3, he⟩ := ih j hj
      exact ⟨j3 + 1, by simpa using hj3, he⟩

theorem filter_getD_mono {α : Type} (d : α) (p : α → Bool) :
    ∀ (l : List α) (i j : Nat), i < j → j < (l.filter p).length →
      ∃ i2 j2, i2 < j2 ∧ j2 < l.length ∧
        (l.filter p).getD i d = l.getD i2 d ∧ (l.filter p).getD j d = l.getD j2 d := by
  intro l
  induction l with
  | nil => intro i j hij hj; simp at hj
  | cons a t ih =>
    intro i j hij hj
    by_cases hp : p a
    · rw [List.filter_cons_of_pos hp] at hj ⊢
      cases i with
      | zero =>
        cases j with
        | zero => omega
        | succ j2 =>
          obtain ⟨j3, hj3, he⟩ := filter_getD_mem d p t j2 (by simpa using hj)
          exact ⟨0, j3 + 1, by omega, by simpa using hj3, rfl, he⟩
      | succ i2 =>
        cases j with
        | zero => omega
        | succ j2 =>
          obtain ⟨i3, j3, hij3, hj3, he1, he2⟩ := ih i2 j2 (by omega) (by simpa using hj)
          exact ⟨i3 + 1, j3 + 1, by omega, by simpa using hj3, he1, he2⟩
    · rw [List.filter_cons_of_neg hp] at hj ⊢
      obtain ⟨i3, j3, hij3, hj3, he1, he2⟩ := ih i j hij hj
      exact ⟨i3 + 1, j3 + 1, by omega, by simpa using hj3, he1, he2⟩

theorem rangeOverlap_iff_exists (r1 r2 : SeqRange) :
    rangeOverlap r1 r2 = true ↔ ∃ x, r1.containsPos x ∧ r2.containsPos x := by
  unfold rangeOverlap SeqRange.containsPos
  simp only [decide_eq_true_eq]
  constructor
  · intro h
    exact ⟨max r1.begin_ r2.begin_, ⟨le_max_left _ _, by omega⟩, ⟨le_max_right _ _, by omega⟩⟩
  · rintro ⟨x, ⟨h1, h2⟩, h3, h4⟩
    omega

/-!
Concrete objects used by examples and witnesses.
-/

/-- Feature with range `[10, 20)` on sequence `chr1`. -/
def cxFeat1020 : BasicSequenceFeature :=
  BasicSequenceFeature.make ("f1") ("chr1") ("test") ("gene") 10 20 ('+') (-1)

def cxFeatA : BasicSequenceFeature :=
  BasicSequenceFeature.make ("fA") ("chr1") ("t") ("gene") 0 100 ('+') (-1)

def cxFeatB : BasicSequenceFeature :=
  BasicSequenceFeature.make ("fB") ("chr2") ("t") ("gene") 0 100 ('+') (-1)

/-!
Claim theorems.
-/

/-- C1: `getSubsetForRange(range, complete)` keeps exactly the features of the
set satisfying `isIncludedIn(range)` when `complete = true` and exactly those
satisfying `overlap(range)` when `complete = false`; in particular a feature
with range `[10,20)` is excluded by the query `[20,30)` with
`complete = false`, and the query `[15,25)` includes it with
`complete = false` but excludes it with `complete = true`. -/
theorem getSubsetForRange_correct (s : SequenceFeatureSet) (r : SeqRange)
    (f : BasicSequenceFeature) :
    (f ∈ (s.getSubsetForRange r true).features_ ↔
      f ∈ s.features_ ∧ f.isIncludedIn r = true) ∧
    (f ∈ (s.getSubsetForRange r false).features_ ↔
      f ∈ s.features_ ∧ f.overlap r = true) ∧
    cxFeat1020.overlap (SeqRange.make 20 30 ('.')) = false ∧
    (SequenceFeatureSet.getSubsetForRange ⟨[cxFeat1020]⟩
      (SeqRange.make 20 30 ('.')) false).features_ = [] ∧
    cxFeat1020.overlap (SeqRange.make 15 25 ('.')) = true ∧
    (SequenceFeatureSet.getSubsetForRange ⟨[cxFeat1020]⟩
      (SeqRange.make 15 25 ('.')) false).features_ = [cxFeat1020] ∧
    cxFeat1020.isIncludedIn (SeqRange.make 15 25 ('.')) = false ∧
    (SequenceFeatureSet.getSubsetForRange ⟨[cxFeat1020]⟩
      (SeqRange.make 15 25 ('.')) true).features_ = [] := by
  refine ⟨?_, ?_, by decide, by decide, by decide, by decide, by decide, by decide⟩
  · simp [SequenceFeatureSet.getSubsetForRange, List.mem_filter]
  · simp [SequenceFeatureSet.getSubsetForRange, List.mem_filter]

/-- C2: feature-to-feature `overlap` returns true iff the two sequence ids
are equal and the two half-open ranges share at least one coordinate; when
the sequence ids differ it returns false regardless of the coordinates. -/
theorem overlapFeature_iff (F G : BasicSequenceFeature) :
    (F.overlapFeature G = true ↔
      F.getSequenceId = G.getSequenceId ∧
        ∃ x, F.range_.containsPos x ∧ G.range_.containsPos x) ∧
    (F.getSequenceId ≠ G.getSequenceId → F.overlapFeature G = false) := by
  have hr := rangeOverlap_iff_exists F.range_ G.range_
  unfold BasicSequenceFeature.overlapFeature BasicSequenceFeature.getSequenceId
    BasicSequenceFeature.getRange
  by_cases h : G.sequenceId_ = F.sequenceId_
  · rw [if_pos (by rw [beq_iff_eq]; exact h)]
    constructor
    · constructor
      · intro ho; exact ⟨h.symm, hr.mp ho⟩
      · intro hx; exact hr.mpr hx.2
    · intro hne; exact absurd h.symm hne
  · rw [if_neg (by rw [beq_iff_eq]; exact h)]
    refine ⟨?_, fun _ => rfl⟩
    constructor
    · intro hc; exact absurd hc (by simp)
    · rintro ⟨he, -⟩; exact absurd he.symm h

/-- Witness for C2: two features on different sequences do not overlap even
though their coordinate ranges coincide. -/
theorem overlapFeature_iff_witness : cxFeatA.overlapFeature cxFeatB = false :=
  (overlapFeature_iff cxFeatA cxFeatB).2 (by decide)

/-- C5: both `SeqRange` constructors store the given strand when it is one of
the four recognized symbols and store `'.'` otherwise; construction is a
total function and the stored strand is always one of the four symbols. -/
theorem strand_normalized (a b : Nat) (r : SeqRange) (c : Char) :
    ((c = '+' ∨ c = '-' ∨ c = '.' ∨ c = '?') →
      (SeqRange.make a b c).strand_ = c ∧ (SeqRange.ofRange r c).strand_ = c) ∧
    (¬(c = '+' ∨ c = '-' ∨ c = '.' ∨ c = '?') →
      (SeqRange.make a b c).strand_ = '.' ∧ (SeqRange.ofRange r c).strand_ = '.') ∧
    ((SeqRange.make a b c).strand_ = '+' ∨ (SeqRange.make a b c).strand_ = '-' ∨
      (SeqRange.make a b c).strand_ = '.' ∨ (SeqRange.make a b c).strand_ = '?') ∧
    ((SeqRange.ofRange r c).strand_ = '+' ∨ (SeqRange.ofRange r c).strand_ = '-' ∨
      (SeqRange.ofRange r c).strand_ = '.' ∨ (SeqRange.ofRange r c).strand_ = '?') := by
  unfold SeqRange.make SeqRange.ofRange strandInit
  by_cases h : c ≠ '+' ∧ c ≠ '-' ∧ c ≠ '?' ∧ c ≠ '.'
  · simp only [if_pos h]
    exact ⟨fun hc => absurd hc (by tauto), fun _ => by simp, by tauto, by tauto⟩
  · simp only [if_neg h]
    have h4 : c = '+' ∨ c = '-' ∨ c = '?' ∨ c = '.' := by tauto
    exact ⟨fun _ => by simp, fun hc => absurd h4 (by tauto), by tauto, by tauto⟩

/-- Witness for C5: the unrecognized strand character `'x'` is stored as
`'.'`. -/
theorem strand_normalized_witness : (SeqRange.make 1 2 ('x')).strand_ = '.' :=
  ((strand_normalized 1 2 (SeqRange.make 0 0 ('.')) ('x')).2.1 (by decide)).1

/-- C6: `invert` maps strand `'+'` to `'-'` and `'-'` to `'+'`, is the
identity when the strand is `'.'` or `'?'`, never touches the bounds, and
applied twice restores the original range (hence the original strand). -/
theorem invert_involutive (r : SeqRange) :
    (r.strand_ = '+' → (r.invert).strand_ = '-') ∧
    (r.strand_ = '-' → (r.invert).strand_ = '+') ∧
    ((r.strand_ = '.' ∨ r.strand_ = '?') → r.invert = r) ∧
    (r.invert).begin_ = r.begin_ ∧ (r.invert).end_ = r.end_ ∧
    r.invert.invert = r := by
  obtain ⟨b, e, c⟩ := r
  by_cases hp : c = '+'
  · subst hp
    simp +decide [SeqRange.invert, SeqRange.isStranded, SeqRange.isNegativeStrand]
  · by_cases hm : c = '-'
    · subst hm
      simp +decide [SeqRange.invert, SeqRange.isStranded, SeqRange.isNegativeStrand]
    · simp [SeqRange.invert, SeqRange.isStranded, SeqRange.isNegativeStrand,
        beq_iff_eq, hp, hm]

/-- Witness for C6: inverting a concrete positive-strand range yields the
negative strand. -/
theorem invert_involutive_witness :
    ((SeqRange.make 3 7 ('+')).invert).strand_ = '-' :=
  (invert_involutive (SeqRange.make 3 7 ('+'))).1 (by decide)

/-- C9: for a feature with `start ≤ end` (both within the `size_t` domain),
`size()` equals `end - start`, `isEmpty()` holds iff the size is `0` iff
`start = end`, `isPoint()` holds iff the size is `1` iff `end = start + 1`,
and no feature is both empty and a point. -/
theorem size_isEmpty_isPoint (f : BasicSequenceFeature)
    (h1 : f.getStart ≤ f.getEnd) (h2 : f.getEnd < 2 ^ 64) :
    f.size = f.getEnd - f.getStart ∧
    (f.isEmpty = true ↔ f.size = 0) ∧ (f.size = 0 ↔ f.getStart = f.getEnd) ∧
    (f.isPoint = true ↔ f.size = 1) ∧ (f.size = 1 ↔ f.getEnd = f.getStart + 1) ∧
    ¬(f.isEmpty = true ∧ f.isPoint = true) := by
  unfold BasicSequenceFeature.isEmpty BasicSequenceFeature.isPoint
    BasicSequenceFeature.size sizeTSub BasicSequenceFeature.getStart
    BasicSequenceFeature.getEnd at *
  generalize hb : f.range_.begin_ = b at *
  generalize he : f.range_.end_ = e at *
  refine ⟨?_, ?_, ?_, ?_, ?_, ?_⟩ <;> try simp only [beq_iff_eq]
  all_goals omega

/-- Witness for C9 at the concrete feature with range `[10, 20)`. -/
theorem size_isEmpty_isPoint_witness :
    cxFeat1020.size = cxFeat1020.getEnd - cxFeat1020.getStart :=
  (size_isEmpty_isPoint cxFeat1020 (by decide) (by decide)).1

/-- C10: every filtering operation of `SequenceFeatureSet` emits the kept
features in the receiver's insertion order: each subset's feature list is an
order-preserving selection (sublist) of the receiver's, two kept positions
always come from two receiver positions in the same relative order, and the
range-fill operations append the (filtered) ranges in insertion order. -/
theorem subsets_preserve_order (s : SequenceFeatureSet) (type id : String)
    (types ids : List String) (r : SeqRange) (complete : Bool)
    (coords : List SeqRange) (seqId : String) (i j : Nat) :
    (s.getSubsetForType type).features_.Sublist s.features_ ∧
    (s.getSubsetForTypes types).features_.Sublist s.features_ ∧
    (s.getSubsetForSequence id).features_.Sublist s.features_ ∧
    (s.getSubsetForSequences ids).features_.Sublist s.features_ ∧
    (s.getSubsetForRange r complete).features_.Sublist s.features_ ∧
    (i < j → j < (s.getSubsetForType type).features_.length →
      ∃ i2 j2, i2 < j2 ∧ j2 < s.features_.length ∧
        (s.getSubsetForType type).features_.getD i default =
          s.features_.getD i2 default ∧
        (s.getSubsetForType type).features_.getD j default =
          s.features_.getD j2 default) ∧
    s.fillRangeCollection coords =
      coords ++ s.features_.map BasicSequenceFeature.getRange ∧
    s.fillRangeCollectionForSequence seqId coords =
      coords ++ ((s.features_.filter (fun f => f.sequenceId_ == seqId)).map
        BasicSequenceFeature.getRange) ∧
    (s.features_.filter (fun f => f.sequenceId_ == seqId)).Sublist s.features_ := by
  refine ⟨List.filter_sublist _, List.filter_sublist _, List.filter_sublist _,
    List.filter_sublist _, List.filter_sublist _, ?_, rfl, rfl,
    List.filter_sublist _⟩
  intro hij hj
  exact filter_getD_mono default _ s.features_ i j hij hj

/-- Set used by the C10 witness: three features in insertion order. -/
def cxSet10 : SequenceFeatureSet := ⟨[cxFeatA, cxFeatB, cxFeatA]⟩

/-- Witness for C10: two kept positions of a concrete type-subset come from
two receiver positions in the same relative order. -/
theorem subsets_preserve_order_witness :
    ∃ i2 j2, i2 < j2 ∧ j2 < cxSet10.features_.length ∧
      (cxSet10.getSubsetForType ("gene")).features_.getD 0 default =
        cxSet10.features_.getD i2 default ∧
      (cxSet10.getSubsetForType ("gene")).features_.getD 1 default =
        cxSet10.features_.getD j2 default :=
  (subsets_preserve_order cxSet10 ("gene") ("x") [] [] (SeqRange.make 0 1 ('.'))
    true [] ("x") 0 1).2.2.2.2.2.1 (by decide) (by decide)

/-- C7: `setAttribute(k, v)` makes the read-only `getAttribute(k)` return `v`
(upsert: created if absent, overwritten if present, so `k` is an attribute
name afterwards); after `removeAttribute(k)` the read-only `getAttribute(k)`
returns the shared `NO_ATTRIBUTE_SET` sentinel (it never fails) and `k` is no
longer an attribute name; `removeAttribute` on an absent name is a no-op.
The hypothesis is the `std::map` invariant that attribute keys are unique. -/
theorem attribute_roundtrip (f : BasicSequenceFeature) (k v : String)
    (hwf : (f.attributes_.map Prod.fst).Nodup) :
    (f.setAttribute k v).getAttribute k = v ∧
    k ∈ (f.setAttribute k v).getAttributeList ∧
    (f.removeAttribute k).getAttribute k = NO_ATTRIBUTE_SET ∧
    k ∉ (f.removeAttribute k).getAttributeList ∧
    (k ∉ f.getAttributeList → f.removeAttribute k = f) := by
  refine ⟨?_, mem_keys_mapInsert f.attributes_ k v, ?_,
    not_mem_keys_mapErase f.attributes_ k hwf, ?_⟩
  · simp only [BasicSequenceFeature.setAttribute, BasicSequenceFeature.getAttribute]
    rw [mapFind_mapInsert_self]
  · simp only [BasicSequenceFeature.removeAttribute, BasicSequenceFeature.getAttribute]
    rw [(mapFind_eq_none_iff _ _).mpr (not_mem_keys_mapErase f.attributes_ k hwf)]
  · intro hk
    have h2 : mapErase f.attributes_ k = f.attributes_ :=
      mapErase_of_not_mem f.attributes_ k hk
    unfold BasicSequenceFeature.removeAttribute
    rw [h2]

/-- Witness for C7 on a concrete feature with no attributes. -/
theorem attribute_roundtrip_witness :
    (cxFeatA.setAttribute ("k") ("v")).getAttribute ("k") = "v" :=
  (attribute_roundtrip cxFeatA ("k") ("v") (by decide)).1

/-- C8: calling the mutable `getAttribute` on an absent name `k` creates the
entry with the empty string as a side effect: the call returns `""`, and
afterwards `k` is a member of `getAttributeList()` and the read-only
`getAttribute(k)` returns `""` instead of hitting the absent case. -/
theorem mutable_getAttribute_autovivifies (f : BasicSequenceFeature)
    (k : String) (h : k ∉ f.getAttributeList) :
    (f.getAttributeMut k).1 = "" ∧
    k ∈ (f.getAttributeMut k).2.getAttributeList ∧
    (f.getAttributeMut k).2.getAttribute k = "" := by
  have hf : mapFind f.attributes_ k = none :=
    (mapFind_eq_none_iff _ _).mpr
      (by simpa [BasicSequenceFeature.getAttributeList] using h)
  refine ⟨?_, ?_, ?_⟩
  · simp only [BasicSequenceFeature.getAttributeMut, hf]
  · simp only [BasicSequenceFeature.getAttributeMut, hf,
      BasicSequenceFeature.getAttributeList]
    exact mem_keys_mapInsert f.attributes_ k ("")
  · simp only [BasicSequenceFeature.getAttributeMut, hf,
      BasicSequenceFeature.getAttribute]
    rw [mapFind_mapInsert_self]

/-- Witness for C8 on a concrete feature with no attributes. -/
theorem mutable_getAttribute_autovivifies_witness :
    (cxFeatA.getAttributeMut ("q")).2.getAttribute ("q") = "" :=
  (mutable_getAttribute_autovivifies cxFeatA ("q") (by decide)).2.2

/-- C3: in the heap model, `addFeature` stores a fresh deep copy of the whole
record (attribute map included): the stored cell holds the argument's value,
writing any value to the original object's address leaves the stored copy
unchanged, and writing to the stored copy's address leaves the original
unchanged; and every `getSubsetFor*` operation (the shared filtering loop,
for an arbitrary predicate) returns a subset whose cells are disjoint from
the parent's, so a later write to any parent-owned address leaves every
feature of the previously returned subset unchanged. -/
theorem deep_copy_independence (h : Heap) (s : SequenceFeatureSetH) (a : Nat)
    (p : BasicSequenceFeature → Bool) (w : BasicSequenceFeature)
    (ha : a < h.store.length) :
    ((addFeatureH h s a).2.features_ = s.features_ ++ [h.store.length] ∧
      (addFeatureH h s a).1.read h.store.length = h.read a ∧
      ((addFeatureH h s a).1.write a w).read h.store.length = h.read a ∧
      ((addFeatureH h s a).1.write h.store.length w).read a = h.read a) ∧
    (∀ b ∈ s.features_, b < h.store.length →
      ∀ c ∈ (getSubsetByH h s p).2.features_,
        ((getSubsetByH h s p).1.write b w).read c =
          (getSubsetByH h s p).1.read c) := by
  have hne : a ≠ h.store.length := by omega
  have hstored : (addFeatureH h s a).1.read h.store.length = h.read a := by
    simp only [addFeatureH, Heap.alloc]
    unfold Heap.read
    rw [List.getD_append_right _ _ _ _ (le_refl h.store.length)]
    simp
  have horig : (addFeatureH h s a).1.read a = h.read a := by
    simp only [addFeatureH, Heap.alloc]
    exact heap_read_append_old h.store [h.read a] a ha
  constructor
  · refine ⟨by simp [addFeatureH, Heap.alloc], hstored, ?_, ?_⟩
    · rw [heap_read_write_ne _ _ _ _ hne]
      exact hstored
    · rw [heap_read_write_ne _ _ _ _ (Ne.symm hne)]
      exact horig
  · intro b hb hblen c hc
    have hcge : h.store.length ≤ c := by
      rcases subsetLoopH_addrs p s.features_ h ⟨[]⟩ c hc with h1 | h2
      · simp at h1
      · exact h2
    exact heap_read_write_ne _ b c w (by omega)

def cxHeap3 : Heap := ⟨[cxFeatA, cxFeatB]⟩

def cxSetH3 : SequenceFeatureSetH := ⟨[0, 1]⟩

/-- Witness for C3: after adding the feature at address 0 to a two-feature
heap, overwriting the original address does not change the stored copy. -/
theorem deep_copy_independence_witness :
    ((addFeatureH cxHeap3 cxSetH3 0).1.write 0 cxFeatB).read 2 = cxHeap3.read 0 :=
  ((deep_copy_independence cxHeap3 cxSetH3 0 (fun _ => true) cxFeatB
    (by decide)).1).2.2.1

theorem getD_set_self {α : Type} (l : List α) (i : Nat) (x d : α)
    (hi : i < l.length) : (l.set i x).getD i d = x := by
  simp [List.getD, List.getElem?_set_self hi]

theorem getD_set_ne {α : Type} (l : List α) (i j : Nat) (x d : α)
    (hij : i ≠ j) : (l.set i x).getD j d = l.getD j d := by
  simp [List.getD, List.getElem?_set_ne hij]

theorem cloneLoop_reads (h : Heap) (src : List Nat)
    (k : Nat) (hk : k < src.length) :
    Heap.read ⟨h.store ++ src.map h.read⟩
        ((List.range' h.store.length src.length).getD k 0) =
      h.read (src.getD k 0) := by
  have hlen : (List.range' h.store.length src.length).length = src.length := by
    simp
  rw [List.getD_eq_getElem _ _ (by omega : k < (List.range' h.store.length src.length).length)]
  rw [List.getElem_range'_1 k (by omega)]
  unfold Heap.read
  rw [List.getD_append_right _ _ _ _ (by omega : h.store.length ≤ h.store.length + k)]
  have hidx : h.store.length + k - h.store.length = k := by omega
  rw [hidx]
  rw [List.getD_eq_getElem _ _ (by simpa using hk), List.getElem_map]
  rw [List.getD_eq_getElem _ _ hk]

def cxHeap4 : Heap := ⟨[cxFeatA]⟩

/-- C4 counterexample: self-assignment `S = S` of a one-element set first
runs `clear()` on the target and then iterates over the source vector — which
is the same, now empty, vector — so the set ends empty instead of holding a
clone of each of its (one) former elements. -/
theorem opAssign_self_loses_elements :
    (([[0]] : List (List Nat)).getD 0 []).length = 1 ∧
    ((opAssign cxHeap4 [[0]] 0 0).2.getD 0 []).length = 0 :=
  ⟨rfl, rfl⟩

/-- C4 (amended): for two distinct `SequenceFeatureSet` objects, `operator=`
replaces the target's contents with exactly one fresh deep clone of each
source element, in source order, sharing no cell with the source's storage;
the copy constructor gives the same guarantee for the new object.
Self-assignment `S = S`, however, leaves `S` empty (the original claim fails
there, see the counterexample), because the code clears the target before
iterating over the source vector. -/
theorem assignment_deep_clones (h : Heap) (sets : List (List Nat)) (i j : Nat)
    (hij : i ≠ j) (hi : i < sets.length)
    (hsrc : ∀ a ∈ sets.getD j [], a < h.store.length) :
    (((opAssign h sets i j).2.getD i []).length = (sets.getD j []).length ∧
     (∀ k, k < (sets.getD j []).length →
       (opAssign h sets i j).1.read
           (((opAssign h sets i j).2.getD i []).getD k 0) =
         h.read ((sets.getD j []).getD k 0)) ∧
     (∀ c ∈ (opAssign h sets i j).2.getD i [], c ∉ sets.getD j [])) ∧
    ((opAssign h sets i i).2.getD i []).length = 0 ∧
    (((copyCtorH h sets j).2.getD sets.length []).length =
        (sets.getD j []).length ∧
     (∀ k, k < (sets.getD j []).length →
       (copyCtorH h sets j).1.read
           (((copyCtorH h sets j).2.getD sets.length []).getD k 0) =
         h.read ((sets.getD j []).getD k 0)) ∧
     (∀ c ∈ (copyCtorH h sets j).2.getD sets.length [], c ∉ sets.getD j [])) := by
  have hspec := assignCloneLoop_spec (sets.getD j []) h [] hsrc
  have hget1 : (sets.set i ([] : List Nat)).getD j [] = sets.getD j [] :=
    getD_set_ne sets i j [] [] hij
  have hop : opAssign h sets i j =
      (⟨h.store ++ (sets.getD j []).map h.read⟩,
        (sets.set i []).set i
          (List.range' h.store.length (sets.getD j []).length)) := by
    simp only [opAssign, hget1, hspec, List.nil_append]
  have hgeti : ∀ (x : List Nat), ((sets.set i ([] : List Nat)).set i x).getD i [] = x := by
    intro x
    rw [List.set_set]
    exact getD_set_self sets i x [] hi
  refine ⟨⟨?_, ?_, ?_⟩, ?_, ⟨?_, ?_, ?_⟩⟩
  · rw [hop]
    rw [hgeti]
    simp
  · intro k hk
    rw [hop]
    simp only [hgeti]
    exact cloneLoop_reads h (sets.getD j []) k hk
  · intro c hc
    rw [hop] at hc
    simp only [hgeti] at hc
    intro hcs
    have h1 := hsrc c hcs
    have h2 := (List.mem_range'_1.mp hc).1
    omega
  · have hget2 : (sets.set i ([] : List Nat)).getD i [] = [] :=
      getD_set_self sets i [] [] hi
    simp only [opAssign, hget2, assignCloneLoop]
    rw [hgeti]
    rfl
  · simp only [copyCtorH, hspec, List.nil_append]
    rw [List.getD_append_right _ _ _ _ (le_refl sets.length)]
    simp
  · intro k hk
    simp only [copyCtorH, hspec, List.nil_append]
    rw [List.getD_append_right _ _ _ _ (le_refl sets.length)]
    simp only [Nat.sub_self, List.getD_cons_zero]
    exact cloneLoop_reads h (sets.getD j []) k hk
  · intro c hc
    simp only [copyCtorH, hspec, List.nil_append] at hc
    rw [List.getD_append_right _ _ _ _ (le_refl sets.length)] at hc
    simp only [Nat.sub_self, List.getD_cons_zero] at hc
    intro hcs
    have h1 := hsrc c hcs
    have h2 := (List.mem_range'_1.mp hc).1
    omega

/-- Witness for C4 (amended): assignment between two distinct concrete set
objects preserves the source's element count in the target. -/
theorem assignment_deep_clones_witness :
    ((opAssign cxHeap4 [[0], []] 1 0).2.getD 1 []).length =
      (([[0], []] : List (List Nat)).getD 0 []).length :=
  (assignment_deep_clones cxHeap4 [[0], []] 1 0 (by decide) (by decide)
    (by decide)).1.1

end BppSeqOmics
